import Mathlib

/-!
# Warbler: address resolution, stream lookup and record projection

A shallow embedding of the logic of `warbler.go`:

* `ReadSegment` (virtual address to file bytes over the 64-bit memory-range list),
  with its callers `DumpMemory` and the stream lookups `GetThreadList`, `GetMemory64List`;
* `RemoveEmptyFromEnd`, `GetTableHeader`, `GetValueAsRow` (the record projector).
* `GetMemoryProtectionString` (the protection label of a memory-info entry).

Conventions.  Go `uint64` values are naturals and every `uint64` addition of the source is
reduced modulo `2 ^ 64`.  A Go `string` or `[]byte` is a list of bytes, so `len` is the
list length and `s[:n]` is `List.take n`.  A run of a function that can end in a runtime
panic or in `os.Exit` returns an explicit outcome.  The Unicode functions of the standard
library behind `CanInterface` and `strings.ToUpper` are a parameter (`StdLib`) of the
projector and of the commands that print tables.
-/

namespace Warbler

set_option maxRecDepth 8000

/-! ## Go values -/

/-- A Go `string`: a sequence of bytes (`len` counts bytes, slicing cuts at byte offsets). -/
abbrev GoString := List UInt8

/-- The bytes of a string literal of the source (UTF-8, as Go stores literals). -/
def utf8 (s : String) : GoString := s.toList.flatMap String.utf8EncodeChar

/-- The modulus of `uint64` arithmetic. -/
def two64 : Nat := 18446744073709551616

/-! ## The 64-bit memory-range stream -/

/-- Modelled from the spec: a `MemoryRangeDescriptor` of the 64-bit memory-range stream (the
decoder type `WindowsMinidump_MemoryDescriptor64` is generated code that is not part of the
sources).  `StartOfMemoryRange` and `LenData` are `uint64` fields; `Data` is what the
accessor `memRange.Data()` yields (its error is discarded by the caller). -/
structure MemRange where
  StartOfMemoryRange : Nat
  LenData : Nat
  Data : List UInt8 := []
deriving Repr, DecidableEq

/-- Modelled from the spec: the payload of the 64-bit memory-range stream
(`WindowsMinidump_Memory64List`, generated code that is not part of the sources): the file
offset `BaseRva` (`uint64`) of the first range's bytes and the ranges in stored order. -/
structure Memory64List where
  BaseRva : Nat
  MemRanges : List MemRange
deriving Repr, DecidableEq

/-- The value `ioutil.ReadFile` returns on success: a byte slice whose first `len` elements
are the file (`content`) and whose backing buffer goes on for `cap - len` further elements
(`spare`).  A Go slice holds fewer than `2 ^ 63` elements. -/
structure FileData where
  content : List UInt8
  spare : List UInt8 := []
  fits : content.length + spare.length < 2 ^ 63

/-- The capacity `cap(data)` of the slice returned by `ReadFile`. -/
def FileData.cap (d : FileData) : Nat := d.content.length + d.spare.length

/-- How a call of `ReadSegment` ends: it returns bytes, it dies in a runtime panic
(slice bounds out of range), or it prints `Unable to read memory range` and calls
`os.Exit(-1)`. -/
inductive Outcome where
  | ret (data : List UInt8)
  | panic
  | exit
deriving Repr, DecidableEq

/-- The Go slice expression `data[lo:hi]` on the slice returned by `ReadFile`.  For a slice
operand the indices are in range when `lo <= hi <= cap(data)`; otherwise the run panics. -/
def sliceExpr (data : FileData) (lo hi : Nat) : Outcome :=
  if lo ≤ hi ∧ hi ≤ data.cap then
    .ret (((data.content ++ data.spare).drop lo).take (hi - lo))
  else .panic

/-- The body shared by the two matching branches of `ReadSegment`: read the whole file
(`none` is a failed `ReadFile`, after which the process exits) and return
`data[SegmentRVA : SegmentRVA+segment.LenData]`, the upper index computed in `uint64`. -/
def readRange (file : Option FileData) (SegmentRVA LenData : Nat) : Outcome :=
  match file with
  | none => .exit
  | some data => sliceExpr data SegmentRVA ((SegmentRVA + LenData) % two64)

/-- The loop of `ReadSegment` from the current segment on, `currentOffset` being the running
`uint64` sum of the `LenData` of the segments already passed.  The test
`i < len(memoryList.MemRanges)-1` holds exactly when a next segment exists. -/
def ReadSegment.loop (file : Option FileData) (address BaseRva : Nat) :
    Nat → List MemRange → Outcome
  | _, [] => .ret []
  | currentOffset, segment :: rest =>
    if segment.StartOfMemoryRange = address then
      readRange file ((BaseRva + currentOffset) % two64) segment.LenData
    else if (match rest with
        | [] => false
        | next :: _ =>
          decide (address > segment.StartOfMemoryRange ∧ address < next.StartOfMemoryRange))
    then
      readRange file
        ((BaseRva + currentOffset + (address - segment.StartOfMemoryRange)) % two64)
        segment.LenData
    else
      ReadSegment.loop file address BaseRva ((currentOffset + segment.LenData) % two64) rest

/-- The function `ReadSegment(file, address, memoryList)`; `file` stands for the result of
`ioutil.ReadFile(file)`, which is only consulted inside a matching branch. -/
def ReadSegment (file : Option FileData) (address : Nat) (memoryList : Memory64List) :
    Outcome :=
  ReadSegment.loop file address memoryList.BaseRva 0 memoryList.MemRanges

/-- How `DumpMemory` ends.  `write data` is the branch `len(data) > 0`, which hands `data`
to `ioutil.WriteFile`; `failedToFind` is the branch that prints
`Failed to find <address> in memranges` (the same test guards `ScanYara`). -/
inductive DumpResult where
  | write (data : List UInt8)
  | failedToFind
  | panic
  | exit
deriving Repr, DecidableEq

/-- The function `DumpMemory(address, memoryList, file, dumpFile)` up to the write itself. -/
def DumpMemory (address : Nat) (memoryList : Memory64List) (file : Option FileData) :
    DumpResult :=
  match ReadSegment file address memoryList with
  | .ret data => if data.length > 0 then .write data else .failedToFind
  | .panic => .panic
  | .exit => .exit

/-- The resolver of the specification, in its words: walk the ranges in stored order with
`cumulativeOffset` starting at 0; Case A (exact match) gives offset
`baseOffset + cumulativeOffset`; Case B (strictly between this start and the next range's
start, and not the last range) gives `baseOffset + cumulativeOffset + (address - start)`;
both give length `dataSize`; otherwise accumulate and continue; `none` is `NotFound`.
Offsets are 64-bit unsigned. -/
def resolve (address baseOffset : Nat) : Nat → List MemRange → Option (Nat × Nat)
  | _, [] => none
  | cumulativeOffset, r :: rest =>
    if address = r.StartOfMemoryRange then
      some ((baseOffset + cumulativeOffset) % two64, r.LenData)
    else if r.StartOfMemoryRange < address ∧
        (∃ next, rest.head? = some next ∧ address < next.StartOfMemoryRange) then
      some ((baseOffset + cumulativeOffset + (address - r.StartOfMemoryRange)) % two64,
        r.LenData)
    else resolve address baseOffset ((cumulativeOffset + r.LenData) % two64) rest

/-- Sum of the `LenData` of a list of ranges (the ranges before an index: `rs.take j`). -/
def sumLenData (rs : List MemRange) : Nat := (rs.map MemRange.LenData).sum

/-- The start addresses never decrease along the list. -/
def Ascending (rs : List MemRange) : Prop :=
  rs.Pairwise (fun a b => a.StartOfMemoryRange ≤ b.StartOfMemoryRange)

/-- The start addresses increase along the list: the ranges are ordered by start address
and no two of them share one. -/
def StrictlyAscending (rs : List MemRange) : Prop :=
  rs.Pairwise (fun a b => a.StartOfMemoryRange < b.StartOfMemoryRange)

/-- No range reaches into a later one: `start + LenData` of a range is at most the start
of every later range. -/
def NonOverlapping (rs : List MemRange) : Prop :=
  rs.Pairwise (fun a b => a.StartOfMemoryRange + a.LenData ≤ b.StartOfMemoryRange)

/-! ## The stream directory -/

/-- Modelled from the spec: a thread entry of the thread-list stream (generated decoder type,
not part of the sources), with the fields `GetThreadList` copies; `AddrMemoryRange` is
`thread.Stack.AddrMemoryRange`. -/
structure Thread where
  ThreadId : Nat
  AddrMemoryRange : Nat
  SuspendCount : Nat
  Priority : Nat
  Teb : Nat
deriving Repr, DecidableEq

/-- Modelled from the spec: the decoded payload of a stream, a typed record whose Go type
depends on the stream: `*WindowsMinidump_ThreadList`, `*WindowsMinidump_Memory64List`, or
the payload type of another stream (identified by its type code). -/
inductive Payload where
  | threadList (Threads : List Thread)
  | memory64List (list : Memory64List)
  | other (typeCode : Nat)
deriving Repr, DecidableEq

/-- Modelled from the spec: a stream directory entry (`WindowsMinidump_Dir`, generated
decoder type, not part of the sources): the `StreamType` code and what the accessor
`Data()` yields, a typed record or an error and no payload if decoding fails. -/
structure Dir where
  StreamType : Nat
  Data : Except String Payload

/-- Code of `WindowsMinidump_StreamTypes__ThreadList` (`thread_list` in `StreamTypes`). -/
def StreamTypes__ThreadList : Nat := 3

/-- Code of `WindowsMinidump_StreamTypes__Memory64List` (`memory_64_list` in
`StreamTypes`). -/
def StreamTypes__Memory64List : Nat := 9

/-- The type assertion `data.(*parsers.WindowsMinidump_ThreadList)`. -/
def Payload.asThreadList : Payload → Option (List Thread)
  | .threadList ts => some ts
  | _ => none

/-- The type assertion `data.(*parsers.WindowsMinidump_Memory64List)`. -/
def Payload.asMemory64List : Payload → Option Memory64List
  | .memory64List l => some l
  | _ => none

/-- What the lookup loop leaves in its variable: a payload, `nil` (no entry matched), or
nothing because the run died in the type assertion. -/
inductive Lookup (α : Type) where
  | found (payload : α)
  | nil
  | panic
deriving Repr, DecidableEq

/-- The loop at the head of every `Get*` function, for the stream type `code` and the type
assertion `assert` of that function.  At the first entry of the type it calls `Data()`,
prints the error if there is one, asserts the type of `data` and breaks.  A single-value
type assertion panics on a nil interface and on a value of another type.  The first
component collects the errors printed by `fmt.Println(err)`. -/
def streamLookup {α : Type} (code : Nat) (assert : Payload → Option α) :
    List Dir → List String × Lookup α
  | [] => ([], .nil)
  | stream :: rest =>
    if stream.StreamType = code then
      match stream.Data with
      | .error err => ([err], .panic)
      | .ok data =>
        match assert data with
        | some payload => ([], .found payload)
        | none => ([], .panic)
    else streamLookup code assert rest

/-! ## The record projector -/

/-- The value of a struct field as `reflect` sees it: a Go `string`, an unsigned integer
(`uint32`, `uint64`), or a `[]byte`; these are the field types of the records in
`parsers/structs.go`. -/
inductive FieldValue where
  | str (s : GoString)
  | uint (n : Nat)
  | bytes (b : List UInt8)
deriving Repr, DecidableEq

/-- A struct field: its declared name and its value. -/
structure Field where
  name : GoString
  value : FieldValue
deriving Repr, DecidableEq

/-- A struct value handed to the projector: its fields in declaration order. -/
abbrev Record := List Field

/-- The two functions of Go's standard library that the projector relies on and whose
Unicode tables are not part of the sources, taken as parameters: `IsExported name` is
whether a field of that name is exported (its first character is a Unicode upper-case
letter), which is what `reflect` reports through `CanInterface`, and `ToUpper` is
`strings.ToUpper` (Unicode upper-casing).  The one fact used about them is that an
exported name does not upper-case to the empty string: such a name has a first character,
and upper-casing maps each character to a character. -/
structure StdLib where
  IsExported : GoString → Bool
  ToUpper : GoString → GoString
  upper_ne_nil : ∀ name, IsExported name = true → ToUpper name ≠ []

/-- The test `fieldVal.CanInterface()`: true exactly for an exported field. -/
def Field.CanInterface (f : Field) (lib : StdLib) : Bool := lib.IsExported f.name

/-- Upper-casing of one byte of a string of ASCII characters. -/
def upperByte (c : UInt8) : UInt8 :=
  if 97 ≤ c.toNat ∧ c.toNat ≤ 122 then UInt8.ofNat (c.toNat - 32) else c

/-- Whether a name of ASCII characters is exported: its first byte is one of `A` to `Z`. -/
def asciiIsExported (name : GoString) : Bool :=
  match name with
  | [] => false
  | c :: _ => decide (65 ≤ c.toNat ∧ c.toNat ≤ 90)

/-- The standard library on names written in ASCII characters, where Go's two functions
are these: a name is exported when its first byte is one of `A` to `Z`, and upper-casing
maps `a` to `z` onto `A` to `Z`.  It stands for the library at the ASCII field names of
the sample records only; the general statements hold for every `StdLib`. -/
def asciiStdLib : StdLib where
  IsExported := asciiIsExported
  ToUpper := fun s => s.map upperByte
  upper_ne_nil := by
    intro name h
    cases name with
    | nil => simp [asciiIsExported] at h
    | cons c tl => simp

/-- Lower-case hexadecimal digits of a natural number, as `%x` prints an unsigned integer. -/
def hexLower (n : Nat) : GoString := utf8 (String.mk (Nat.toDigits 16 n))

/-- What `%x` prints for a `[]byte`: two lower-case hexadecimal digits per byte. -/
def hexBytes (b : List UInt8) : GoString :=
  b.flatMap (fun x =>
    utf8 (String.mk [Nat.digitChar (x.toNat / 16), Nat.digitChar (x.toNat % 16)]))

/-- The formatted cell of an exported field: `fmt.Sprintf("%s", v)` when the type of the
field is `string`, `fmt.Sprintf("0x%x", v)` otherwise. -/
def formatValue : FieldValue → GoString
  | .str s => s
  | .uint n => utf8 "0x" ++ hexLower n
  | .bytes b => utf8 "0x" ++ hexBytes b

/-- The marker `fmt.Sprintf("TRUNCATE%d:", TruncateLength)`. -/
def truncatePrefix (TruncateLength : Int) : GoString :=
  utf8 "TRUNCATE" ++ utf8 (toString TruncateLength) ++ utf8 ":"

/-- The truncation step of `GetValueAsRow` on a formatted cell.  `TruncateLength` is a Go
`int`; the slice expression `row[i][:TruncateLength]` panics (`none`) when it is
negative. -/
def truncateCell (TruncateLength : Int) (cell : GoString) : Option GoString :=
  if (cell.length : Int) > TruncateLength then
    if TruncateLength < 0 then none
    else some (truncatePrefix TruncateLength ++ cell.take TruncateLength.toNat)
  else some cell

/-- The loop of `RemoveEmptyFromEnd` with `i + 1 = n`: it runs `i` from `n - 1` down to 0
and returns `slice[:i+1]` at the first non-empty `slice[i]`. -/
def RemoveEmptyFromEnd.loop (slice : List GoString) : Nat → List GoString
  | 0 => []
  | i + 1 => if slice.getD i [] ≠ [] then slice.take (i + 1) else RemoveEmptyFromEnd.loop slice i

/-- The function `RemoveEmptyFromEnd(slice)`. -/
def RemoveEmptyFromEnd (slice : List GoString) : List GoString :=
  RemoveEmptyFromEnd.loop slice slice.length

/-- The entry `header[i]` that the loop of `GetTableHeader` leaves for one field: the
upper-cased name of a field that can be interfaced, the empty string otherwise. -/
def headerCell (lib : StdLib) (field : Field) : GoString :=
  if field.CanInterface lib then lib.ToUpper field.name else []

/-- The function `GetTableHeader(data)`: one `header[i]` per field, then trailing empty entries are
removed. -/
def GetTableHeader (lib : StdLib) (data : Record) : List GoString :=
  RemoveEmptyFromEnd (data.map (headerCell lib))

/-- The cell `row[i]` that the loop of `GetValueAsRow` leaves for one field: empty for a
field that cannot be interfaced, else the formatted value after the truncation step. -/
def rowCell (lib : StdLib) (TruncateLength : Int) (field : Field) : Option GoString :=
  if field.CanInterface lib then truncateCell TruncateLength (formatValue field.value)
  else some []

/-- The cell `row[i]` under a limit that is not negative, where the slice expression of
the truncation step cannot panic. -/
def rowCellNat (lib : StdLib) (N : Nat) (field : Field) : GoString :=
  if field.CanInterface lib then
    (if (formatValue field.value).length > N then
      truncatePrefix N ++ (formatValue field.value).take N
    else formatValue field.value)
  else []

/-- The loop of `GetValueAsRow` over the fields in order; `none` when it panics. -/
def rowCells (lib : StdLib) (TruncateLength : Int) : Record → Option (List GoString)
  | [] => some []
  | field :: rest =>
    match rowCell lib TruncateLength field with
    | none => none
    | some cell => (rowCells lib TruncateLength rest).map (fun cells => cell :: cells)

/-- The function `GetValueAsRow(data)` under the global `TruncateLength`; `none` when the run panics. -/
def GetValueAsRow (lib : StdLib) (TruncateLength : Int) (data : Record) :
    Option (List GoString) :=
  (rowCells lib TruncateLength data).map RemoveEmptyFromEnd

/-! ## The display commands -/

/-- The record `parsers.PThread`. -/
def PThread (ThreadId AddrMemoryRange SuspendCount Priority Teb ThreadContext : Nat) :
    Record :=
  [⟨utf8 "ThreadId", .uint ThreadId⟩, ⟨utf8 "AddrMemoryRange", .uint AddrMemoryRange⟩,
   ⟨utf8 "SuspendCount", .uint SuspendCount⟩, ⟨utf8 "Priority", .uint Priority⟩,
   ⟨utf8 "Teb", .uint Teb⟩, ⟨utf8 "ThreadContext", .uint ThreadContext⟩]

/-- The record `parsers.PMemRange`. -/
def PMemRange (AddrMemoryRange LenData OfsData : Nat) (Data : List UInt8) : Record :=
  [⟨utf8 "AddrMemoryRange", .uint AddrMemoryRange⟩, ⟨utf8 "LenData", .uint LenData⟩,
   ⟨utf8 "OfsData", .uint OfsData⟩, ⟨utf8 "Data", .bytes Data⟩]

/-- The record `parsers.PMemRange64`. -/
def PMemRange64 (StartOfMemoryRange DataSize : Nat) (Data : List UInt8) : Record :=
  [⟨utf8 "StartOfMemoryRange", .uint StartOfMemoryRange⟩, ⟨utf8 "DataSize", .uint DataSize⟩,
   ⟨utf8 "Data", .bytes Data⟩]

/-- One thing a command prints: a line of text (an error, a diagnostic) or a rendered
table, given by its header and rows. -/
inductive Printed where
  | text (line : String)
  | table (header : List GoString) (rows : List (List GoString))
deriving Repr, DecidableEq

/-- Whether a command ran to its end or died in a runtime panic. -/
inductive Status where
  | done
  | panic
deriving Repr, DecidableEq

/-- The rows a command appends, one `GetValueAsRow` per record in order; `none` when one of
the calls panics. -/
def appendRows (lib : StdLib) (TruncateLength : Int) :
    List Record → Option (List (List GoString))
  | [] => some []
  | r :: rest =>
    match GetValueAsRow lib TruncateLength r with
    | none => none
    | some row => (appendRows lib TruncateLength rest).map (fun rows => row :: rows)

/-- The function `GetThreadList(dir)`: what it prints and how it ends. -/
def GetThreadList (lib : StdLib) (TruncateLength : Int) (dir : List Dir) :
    List Printed × Status :=
  match streamLookup StreamTypes__ThreadList Payload.asThreadList dir with
  | (errs, .panic) => (errs.map Printed.text, .panic)
  | (errs, .nil) =>
    (errs.map Printed.text ++ [.text "ThreadList stream not found in the Minidump file"],
      .done)
  | (errs, .found threads) =>
    match appendRows lib TruncateLength (threads.map (fun thread =>
        PThread thread.ThreadId thread.AddrMemoryRange thread.SuspendCount thread.Priority
          thread.Teb 0)) with
    | none => (errs.map Printed.text, .panic)
    | some rows => (errs.map Printed.text ++ [.table (GetTableHeader lib (PThread 0 0 0 0 0 0)) rows],
        .done)

/-- The function `GetMemory64List(dir, print)`: what it prints, and the list it returns (`Lookup.nil` is
the nil pointer, `Lookup.panic` a run that died before returning). -/
def GetMemory64List (lib : StdLib) (TruncateLength : Int) (dir : List Dir) (print : Bool) :
    List Printed × Lookup Memory64List :=
  match streamLookup StreamTypes__Memory64List Payload.asMemory64List dir with
  | (errs, .panic) => (errs.map Printed.text, .panic)
  | (errs, .nil) =>
    (errs.map Printed.text ++ [.text "memoryList stream not found in the Minidump file"],
      .nil)
  | (errs, .found memoryList) =>
    match appendRows lib TruncateLength (memoryList.MemRanges.map (fun memRange =>
        PMemRange64 memRange.StartOfMemoryRange memRange.LenData memRange.Data)) with
    | none => (errs.map Printed.text, .panic)
    | some rows =>
      (errs.map Printed.text ++
        (if print then [.table (GetTableHeader lib (PMemRange 0 0 0 [])) rows] else []),
        .found memoryList)

/-! ## Sample inputs -/

/-- A ten-byte file as `ReadFile` returns it: `len` 10 in a zeroed buffer of capacity 512. -/
def tenBytes : FileData :=
  ⟨[1, 2, 3, 4, 5, 6, 7, 8, 9, 10], List.replicate 502 0,
    by rw [List.length_replicate]; decide⟩

/-- A four-byte file as `ReadFile` returns it: `len` 4 in a zeroed buffer of capacity 512
(`os.ReadFile` reads into a buffer of at least 512 bytes, and of at least one byte more
than the file size). -/
def fourBytes : FileData :=
  ⟨[1, 2, 3, 4], List.replicate 508 0, by rw [List.length_replicate]; decide⟩

/-- Two ranges, at 0x1000 (3 bytes) and 0x2000 (4 bytes), their bytes stored from file
offset 2. -/
def twoRanges : Memory64List := ⟨2, [⟨0x1000, 3, []⟩, ⟨0x2000, 4, []⟩]⟩

/-- A single range of zero bytes at 0x1000; the base offset lies beyond any small file. -/
def emptyRange : Memory64List := ⟨0x10000, [⟨0x1000, 0, []⟩]⟩

/-- A single range at 0x1000 that claims 8 bytes stored from file offset 0. -/
def longRange : Memory64List := ⟨0, [⟨0x1000, 8, []⟩]⟩

/-- Two ranges at the same start address 0x1000, the first of zero bytes and the second of
4 bytes, their bytes stored from file offset 2. -/
def sameStart : Memory64List := ⟨2, [⟨0x1000, 0, []⟩, ⟨0x1000, 4, []⟩]⟩

/-- The record `{Name: "abc", Value: 0x2A}`. -/
def nameValue : Record := [⟨utf8 "Name", .str (utf8 "abc")⟩, ⟨utf8 "Value", .uint 0x2A⟩]

/-- A record whose last field is an exported string holding the empty string. -/
def emptyLast : Record := [⟨utf8 "Name", .str (utf8 "abc")⟩, ⟨utf8 "Value", .str []⟩]

/-- A record whose last field is unexported. -/
def hiddenLast : Record := [⟨utf8 "Name", .str (utf8 "abc")⟩, ⟨utf8 "value", .uint 7⟩]

/-- A record whose middle field, an unsigned integer, is unexported. -/
def hiddenMiddle : Record :=
  [⟨utf8 "Name", .str (utf8 "abc")⟩, ⟨utf8 "note", .uint 7⟩, ⟨utf8 "Value", .uint 0x2A⟩]

/-- A record whose middle field is an exported string holding the empty string. -/
def emptyMiddle : Record :=
  [⟨utf8 "Name", .str (utf8 "abc")⟩, ⟨utf8 "Note", .str []⟩, ⟨utf8 "Value", .uint 0x2A⟩]

/-- A thread entry. -/
def mainThread : Thread := ⟨1, 0x7000, 0, 8, 0x9000⟩

/-- A directory with a memory-range stream that fails to decode, then two thread-list
streams. -/
def twoThreadLists : List Dir :=
  [⟨9, .error "decode failed"⟩, ⟨3, .ok (.threadList [mainThread])⟩, ⟨3, .ok (.threadList [])⟩]

/-! ## Memory protection labels -/

/-- The constant `PAGE_NOACCESS`. -/
def PAGE_NOACCESS : Nat := 0x01

/-- The constant `PAGE_READONLY`. -/
def PAGE_READONLY : Nat := 0x02

/-- The constant `PAGE_READWRITE`. -/
def PAGE_READWRITE : Nat := 0x04

/-- The constant `PAGE_WRITECOPY`. -/
def PAGE_WRITECOPY : Nat := 0x08

/-- The constant `PAGE_EXECUTE`. -/
def PAGE_EXECUTE : Nat := 0x10

/-- The constant `PAGE_EXECUTE_READ`. -/
def PAGE_EXECUTE_READ : Nat := 0x20

/-- The constant `PAGE_EXECUTE_READWRITE`. -/
def PAGE_EXECUTE_READWRITE : Nat := 0x40

/-- The constant `PAGE_EXECUTE_WRITECOPY`. -/
def PAGE_EXECUTE_WRITECOPY : Nat := 0x80

/-- The constant `PAGE_TARGETS_INVALID`. -/
def PAGE_TARGETS_INVALID : Nat := 0x40000000

/-- The constant `PAGE_GUARD`. -/
def PAGE_GUARD : Nat := 0x100

/-- The constant `PAGE_NOCACHE`. -/
def PAGE_NOCACHE : Nat := 0x200

/-- The constant `PAGE_WRITECOMBINE`. -/
def PAGE_WRITECOMBINE : Nat := 0x400

/-- The function `GetMemoryProtectionString(protection)` on a `uint32` value: eight tests in
source order, each overwriting `protectionString`, then the default `NONE`. -/
def GetMemoryProtectionString (protection : Nat) : String :=
  let protectionString := ""
  let protectionString :=
    if protection &&& PAGE_NOACCESS ≠ 0 ∨ protection = 0 then "PAGE_NOACCESS"
    else protectionString
  let protectionString :=
    if protection &&& PAGE_READONLY ≠ 0 then "PAGE_READONLY" else protectionString
  let protectionString :=
    if protection &&& PAGE_READWRITE ≠ 0 then "PAGE_READWRITE" else protectionString
  let protectionString :=
    if protection &&& PAGE_WRITECOPY ≠ 0 then "PAGE_WRITECOPY" else protectionString
  let protectionString :=
    if protection &&& PAGE_EXECUTE ≠ 0 then "PAGE_EXECUTE" else protectionString
  let protectionString :=
    if protection &&& PAGE_EXECUTE_READ ≠ 0 then "PAGE_EXECUTE_READ" else protectionString
  let protectionString :=
    if protection &&& PAGE_EXECUTE_READWRITE ≠ 0 then "PAGE_EXECUTE_READWRITE"
    else protectionString
  let protectionString :=
    if protection &&& PAGE_EXECUTE_WRITECOPY ≠ 0 then "PAGE_EXECUTE_WRITECOPY"
    else protectionString
  if protectionString = "" then "NONE" else protectionString

/-- Two ranges at 0x1000 and 0x1010 of 0x100 bytes each: the start addresses increase and
the first range reaches into the second. -/
def overlappingRanges : Memory64List := ⟨0, [⟨0x1000, 0x100, []⟩, ⟨0x1010, 0x100, []⟩]⟩

/-! ## Theorems -/

theorem loop_nil (file : Option FileData) (address BaseRva cur : Nat) :
    ReadSegment.loop file address BaseRva cur [] = .ret [] := rfl

theorem loop_cons (file : Option FileData) (address BaseRva cur : Nat) (seg : MemRange)
    (rest : List MemRange) :
    ReadSegment.loop file address BaseRva cur (seg :: rest) =
      if seg.StartOfMemoryRange = address then
        readRange file ((BaseRva + cur) % two64) seg.LenData
      else if (match rest with
          | [] => false
          | next :: _ =>
            decide (address > seg.StartOfMemoryRange ∧ address < next.StartOfMemoryRange))
      then readRange file ((BaseRva + cur + (address - seg.StartOfMemoryRange)) % two64)
          seg.LenData
      else ReadSegment.loop file address BaseRva ((cur + seg.LenData) % two64) rest := by
  rfl

/-- Passing a segment that matches in neither branch. -/
theorem loop_skip (file : Option FileData) (address BaseRva cur : Nat) (seg : MemRange)
    (rest : List MemRange) (hne : seg.StartOfMemoryRange ≠ address)
    (hB : ∀ next, rest.head? = some next →
      ¬ (seg.StartOfMemoryRange < address ∧ address < next.StartOfMemoryRange)) :
    ReadSegment.loop file address BaseRva cur (seg :: rest) =
      ReadSegment.loop file address BaseRva ((cur + seg.LenData) % two64) rest := by
  rw [loop_cons, if_neg hne]
  cases rest with
  | nil => simp
  | cons next tl =>
    have h := hB next rfl
    simp only [gt_iff_lt, decide_eq_true_eq]
    rw [if_neg h]

theorem loop_all_above (file : Option FileData) (address BaseRva : Nat) :
    ∀ (rs : List MemRange) (cur : Nat), (∀ r ∈ rs, address < r.StartOfMemoryRange) →
      ReadSegment.loop file address BaseRva cur rs = .ret [] := by
  intro rs
  induction rs with
  | nil => intro cur _; rfl
  | cons seg rest ih =>
    intro cur h
    have h0 := h seg (List.mem_cons_self _ _)
    rw [loop_skip file address BaseRva cur seg rest (by omega) (fun _ _ hc => by omega)]
    exact ih _ (fun r hr => h r (List.mem_cons_of_mem _ hr))

theorem loop_all_below (file : Option FileData) (address BaseRva : Nat) :
    ∀ (rs : List MemRange) (cur : Nat), (∀ r ∈ rs, r.StartOfMemoryRange < address) →
      ReadSegment.loop file address BaseRva cur rs = .ret [] := by
  intro rs
  induction rs with
  | nil => intro cur _; rfl
  | cons seg rest ih =>
    intro cur h
    have h0 := h seg (List.mem_cons_self _ _)
    rw [loop_skip file address BaseRva cur seg rest (by omega)]
    · exact ih _ (fun r hr => h r (List.mem_cons_of_mem _ hr))
    · intro next hn hc
      have hmem : next ∈ rest := List.mem_of_mem_head? hn
      have := h next (List.mem_cons_of_mem _ hmem)
      omega

theorem sumLenData_cons (seg : MemRange) (rs : List MemRange) :
    sumLenData (seg :: rs) = seg.LenData + sumLenData rs := by
  simp [sumLenData]

theorem head_start_le (rest : List MemRange) (next r : MemRange)
    (hasc : Ascending rest) (hn : rest.head? = some next) (hr : r ∈ rest) :
    next.StartOfMemoryRange ≤ r.StartOfMemoryRange := by
  cases rest with
  | nil => simp at hn
  | cons a tl =>
    simp only [List.head?_cons, Option.some.injEq] at hn
    subst hn
    rcases List.mem_cons.mp hr with h | h
    · subst h; exact le_refl _
    · exact (List.pairwise_cons.mp hasc).1 r h

theorem StrictlyAscending.ascending {rs : List MemRange} (h : StrictlyAscending rs) :
    Ascending rs :=
  List.Pairwise.imp (fun hab => Nat.le_of_lt hab) h

/-- Case A along the loop, from any running offset: the range at index `j` is reached when
the starts never decrease and no range before it has its start address. -/
theorem loop_exact_start (file : Option FileData) (BaseRva : Nat) :
    ∀ (rs : List MemRange) (cur j : Nat) (r : MemRange), rs[j]? = some r →
      Ascending rs →
      (∀ k e, k < j → rs[k]? = some e → e.StartOfMemoryRange ≠ r.StartOfMemoryRange) →
      ReadSegment.loop file r.StartOfMemoryRange BaseRva cur rs =
        readRange file ((BaseRva + cur + sumLenData (rs.take j)) % two64) r.LenData := by
  intro rs
  induction rs with
  | nil => intro cur j r hj; simp at hj
  | cons seg rest ih =>
    intro cur j r hj hasc hfirst
    cases j with
    | zero =>
      simp only [List.getElem?_cons_zero, Option.some.injEq] at hj
      subst hj
      rw [loop_cons, if_pos rfl]
      simp [sumLenData]
    | succ k =>
      simp only [List.getElem?_cons_succ] at hj
      have hmem : r ∈ rest := List.getElem?_mem hj
      have hp := List.pairwise_cons.mp hasc
      have hne := hfirst 0 seg (Nat.succ_pos k) (by simp)
      rw [loop_skip file _ BaseRva cur seg rest hne]
      · rw [ih _ k r hj hp.2 (fun i e hi he => hfirst (i + 1) e (Nat.succ_lt_succ hi)
            (by simpa using he)), List.take_succ_cons, sumLenData_cons]
        congr 1
        unfold two64
        omega
      · intro next hn hc
        have := head_start_le rest next r hp.2 hn hmem
        omega

/-- With strictly ascending starts no range before an index has the start of the range at
that index. -/
theorem StrictlyAscending.first {rs : List MemRange} (h : StrictlyAscending rs) (j : Nat)
    (r : MemRange) (hj : rs[j]? = some r) :
    ∀ k e, k < j → rs[k]? = some e → e.StartOfMemoryRange ≠ r.StartOfMemoryRange := by
  intro k e hk he
  have hlt : e.StartOfMemoryRange < r.StartOfMemoryRange := by
    unfold StrictlyAscending at h
    rw [List.pairwise_iff_getElem] at h
    obtain ⟨hk1, hek⟩ := List.getElem?_eq_some_iff.mp he
    obtain ⟨hj1, hrj⟩ := List.getElem?_eq_some_iff.mp hj
    rw [← hek, ← hrj]
    exact h k j hk1 hj1 hk
  omega

/-- Case B along the loop, from any running offset. -/
theorem loop_between (file : Option FileData) (address BaseRva : Nat) :
    ∀ (rs : List MemRange) (cur i : Nat) (r next : MemRange), rs[i]? = some r →
      rs[i + 1]? = some next → Ascending rs →
      r.StartOfMemoryRange < address → address < next.StartOfMemoryRange →
      ReadSegment.loop file address BaseRva cur rs =
        readRange file
          ((BaseRva + cur + sumLenData (rs.take i) + (address - r.StartOfMemoryRange)) % two64)
          r.LenData := by
  intro rs
  induction rs with
  | nil => intro cur i r next hi; simp at hi
  | cons seg rest ih =>
    intro cur i r next hi hi1 hasc hlo hhi
    have hp := List.pairwise_cons.mp hasc
    cases i with
    | zero =>
      simp only [List.getElem?_cons_zero, Option.some.injEq] at hi
      subst hi
      simp only [zero_add, List.getElem?_cons_succ] at hi1
      cases rest with
      | nil => simp at hi1
      | cons nx tl =>
        simp only [List.getElem?_cons_zero, Option.some.injEq] at hi1
        subst hi1
        rw [loop_cons, if_neg (by omega)]
        simp only [gt_iff_lt, decide_eq_true_eq]
        rw [if_pos ⟨hlo, hhi⟩]
        simp [sumLenData]
    | succ k =>
      simp only [List.getElem?_cons_succ] at hi hi1
      have hmem : r ∈ rest := List.getElem?_mem hi
      have hle := hp.1 r hmem
      rw [loop_skip file _ BaseRva cur seg rest (by omega)]
      · rw [ih _ k r next hi hi1 hp.2 hlo hhi, List.take_succ_cons, sumLenData_cons]
        congr 1
        unfold two64
        omega
      · intro nx hn hc
        have := head_start_le rest nx r hp.2 hn hmem
        omega

/-- Inside the file, the slice is the file bytes of the interval. -/
theorem readRange_inside (d : FileData) (lo len : Nat) (h : lo + len ≤ d.content.length) :
    readRange (some d) lo len = .ret ((d.content.drop lo).take len) := by
  have hfit := d.fits
  have hmod : (lo + len) % two64 = lo + len := by
    apply Nat.mod_eq_of_lt
    unfold two64
    omega
  simp only [readRange, sliceExpr, hmod, FileData.cap]
  rw [if_pos ⟨by omega, by omega⟩]
  congr 1
  rw [Nat.add_sub_cancel_left, List.drop_append_of_le_length (by omega),
    List.take_append_of_le_length (by simp; omega)]

/-- The loop of `ReadSegment` is the resolver of the specification followed by the read. -/
theorem loop_eq_resolve (file : Option FileData) (address BaseRva : Nat) :
    ∀ (rs : List MemRange) (cur : Nat),
      ReadSegment.loop file address BaseRva cur rs =
        match resolve address BaseRva cur rs with
        | none => .ret []
        | some (offset, length) => readRange file offset length := by
  intro rs
  induction rs with
  | nil => intro cur; rfl
  | cons seg rest ih =>
    intro cur
    have hA : (address = seg.StartOfMemoryRange) ↔ (seg.StartOfMemoryRange = address) :=
      ⟨fun h => h.symm, fun h => h.symm⟩
    rw [loop_cons, resolve]
    by_cases h1 : seg.StartOfMemoryRange = address
    · simp only [if_pos h1, if_pos (hA.mpr h1)]
    · simp only [if_neg h1, if_neg (fun h => h1 (hA.mp h))]
      cases rest with
      | nil => simp [ReadSegment.loop, resolve]
      | cons nx tl =>
        simp only [gt_iff_lt, decide_eq_true_eq, List.head?_cons, Option.some.injEq,
          exists_eq_left']
        by_cases h2 : seg.StartOfMemoryRange < address ∧ address < nx.StartOfMemoryRange
        · simp only [if_pos h2]
        · simp only [if_neg h2]
          exact ih _

theorem last_start_ge (rs : List MemRange) (last r : MemRange) (hasc : Ascending rs)
    (hl : rs.getLast? = some last) (hr : r ∈ rs) :
    r.StartOfMemoryRange ≤ last.StartOfMemoryRange := by
  obtain ⟨ys, rfl⟩ := List.getLast?_eq_some_iff.mp hl
  have hp := List.pairwise_append.mp hasc
  rcases List.mem_append.mp hr with h | h
  · exact hp.2.2 r h last (List.mem_singleton_self _)
  · rw [List.mem_singleton.mp h]

theorem resolve_offset_lt (address BaseRva : Nat) :
    ∀ (rs : List MemRange) (cur offset length : Nat),
      resolve address BaseRva cur rs = some (offset, length) → offset < two64 := by
  intro rs
  induction rs with
  | nil => intro cur offset length h; simp [resolve] at h
  | cons seg rest ih =>
    intro cur offset length h
    rw [resolve] at h
    split_ifs at h with h1 h2
    · simp only [Option.some.injEq, Prod.mk.injEq] at h
      rw [← h.1]
      exact Nat.mod_lt _ (by unfold two64; omega)
    · simp only [Option.some.injEq, Prod.mk.injEq] at h
      rw [← h.1]
      exact Nat.mod_lt _ (by unfold two64; omega)
    · exact ih _ _ _ h

theorem readRange_beyond (d : FileData) (offset length : Nat) (ho : offset < two64)
    (hl : length < two64) (hout : d.cap < offset + length) :
    readRange (some d) offset length = .panic := by
  simp only [readRange, sliceExpr]
  rw [if_neg]
  unfold two64 at *
  omega

/-- C1, counterexample: the two ranges of `sameStart` are in ascending order of start
address (both start at 0x1000) and do not overlap (the first holds no byte). For index 1
the claim gives offset 2 + 0 and length 4, the file bytes `[2, 6)` of the ten-byte file;
`ReadSegment` at 0x1000 matches the first range instead and returns its zero bytes. -/
theorem ReadSegment_repeated_start_counterexample :
    Ascending sameStart.MemRanges ∧ NonOverlapping sameStart.MemRanges ∧
    sameStart.MemRanges[1]? = some ⟨0x1000, 4, []⟩ ∧
    (sameStart.BaseRva + sumLenData (sameStart.MemRanges.take 1)) % two64 + 4
      ≤ tenBytes.content.length ∧
    (tenBytes.content.drop
      ((sameStart.BaseRva + sumLenData (sameStart.MemRanges.take 1)) % two64)).take 4 =
        [3, 4, 5, 6] ∧
    ReadSegment (some tenBytes) 0x1000 sameStart = .ret [] ∧
    DumpMemory 0x1000 sameStart (some tenBytes) = .failedToFind := by
  refine ⟨by unfold Ascending; decide, by unfold NonOverlapping; decide, by decide,
    by decide, by decide, by decide, by decide⟩

/-- C1 (amended): for a range list that is ascending by start address (overlapping or
not), every base offset `BaseRva` and every index `j` such that no range before range `j`
has the start address of range `j` (every index, when the start addresses are strictly
ascending), `ReadSegment` at the start address of range `j` reads at file offset
`BaseRva + sum of LenData of ranges 0..j-1` (in 64-bit unsigned arithmetic) with length
`LenData` of range `j`: it ends exactly as the read of that interval does, and when the
interval lies inside the file it returns exactly the file bytes
`[offset, offset + LenData_j)`. -/
theorem ReadSegment_exact_start (memoryList : Memory64List) (j : Nat) (r : MemRange)
    (hj : memoryList.MemRanges[j]? = some r)
    (hasc : Ascending memoryList.MemRanges)
    (hfirst : ∀ k e, k < j → memoryList.MemRanges[k]? = some e →
      e.StartOfMemoryRange ≠ r.StartOfMemoryRange) :
    (∀ file : Option FileData,
      ReadSegment file r.StartOfMemoryRange memoryList =
        readRange file
          ((memoryList.BaseRva + sumLenData (memoryList.MemRanges.take j)) % two64)
          r.LenData) ∧
    (∀ d : FileData,
      (memoryList.BaseRva + sumLenData (memoryList.MemRanges.take j)) % two64 + r.LenData
          ≤ d.content.length →
      ReadSegment (some d) r.StartOfMemoryRange memoryList =
        .ret ((d.content.drop
          ((memoryList.BaseRva + sumLenData (memoryList.MemRanges.take j)) % two64)).take
          r.LenData)) ∧
    (StrictlyAscending memoryList.MemRanges →
      ∀ (i : Nat) (e : MemRange), memoryList.MemRanges[i]? = some e →
        ∀ file : Option FileData,
          ReadSegment file e.StartOfMemoryRange memoryList =
            readRange file
              ((memoryList.BaseRva + sumLenData (memoryList.MemRanges.take i)) % two64)
              e.LenData) := by
  have gen : ∀ (i : Nat) (e : MemRange), memoryList.MemRanges[i]? = some e →
      (∀ k x, k < i → memoryList.MemRanges[k]? = some x →
        x.StartOfMemoryRange ≠ e.StartOfMemoryRange) →
      ∀ file : Option FileData,
        ReadSegment file e.StartOfMemoryRange memoryList =
          readRange file
            ((memoryList.BaseRva + sumLenData (memoryList.MemRanges.take i)) % two64)
            e.LenData := by
    intro i e hi hf file
    unfold ReadSegment
    rw [loop_exact_start file memoryList.BaseRva memoryList.MemRanges 0 i e hi hasc hf]
    simp
  refine ⟨gen j r hj hfirst, fun d hin => ?_, fun hstrict i e hi =>
    gen i e hi (StrictlyAscending.first hstrict i e hi)⟩
  rw [gen j r hj hfirst, readRange_inside d _ _ hin]

/-- C1 (amended) at `twoRanges`, index 1 (address 0x2000): offset 2 + 3 = 5, length 4. -/
theorem ReadSegment_exact_start_witness :
    Ascending twoRanges.MemRanges ∧
    ReadSegment (some tenBytes) 0x2000 twoRanges = .ret [6, 7, 8, 9] :=
  ⟨by unfold Ascending; decide,
   (ReadSegment_exact_start twoRanges 1 ⟨0x2000, 4, []⟩ rfl
      (by unfold Ascending; decide)
      (StrictlyAscending.first (by unfold StrictlyAscending; decide) 1 ⟨0x2000, 4, []⟩
        rfl)).2.1 tenBytes (by decide)⟩

/-- C2: for an ascending range list, an index `i` that is not the last and an address with
`start_i < address < start_(i+1)`, `ReadSegment` reads at file offset
`BaseRva + sum of LenData of ranges 0..i-1 + (address - start_i)` (in 64-bit unsigned
arithmetic) with the full length `LenData_i`: it ends exactly as the read of that interval
does, and when the interval lies inside the file it returns exactly the file bytes
`[offset, offset + LenData_i)`. -/
theorem ReadSegment_between_starts (memoryList : Memory64List) (i address : Nat)
    (r next : MemRange)
    (hi : memoryList.MemRanges[i]? = some r)
    (hnext : memoryList.MemRanges[i + 1]? = some next)
    (hasc : Ascending memoryList.MemRanges)
    (hlo : r.StartOfMemoryRange < address) (hhi : address < next.StartOfMemoryRange) :
    (∀ file : Option FileData,
      ReadSegment file address memoryList =
        readRange file
          ((memoryList.BaseRva + sumLenData (memoryList.MemRanges.take i) +
            (address - r.StartOfMemoryRange)) % two64)
          r.LenData) ∧
    (∀ d : FileData,
      (memoryList.BaseRva + sumLenData (memoryList.MemRanges.take i) +
          (address - r.StartOfMemoryRange)) % two64 + r.LenData ≤ d.content.length →
      ReadSegment (some d) address memoryList =
        .ret ((d.content.drop
          ((memoryList.BaseRva + sumLenData (memoryList.MemRanges.take i) +
            (address - r.StartOfMemoryRange)) % two64)).take r.LenData)) := by
  have key : ∀ file : Option FileData,
      ReadSegment file address memoryList =
        readRange file
          ((memoryList.BaseRva + sumLenData (memoryList.MemRanges.take i) +
            (address - r.StartOfMemoryRange)) % two64)
          r.LenData := by
    intro file
    unfold ReadSegment
    rw [loop_between file address memoryList.BaseRva memoryList.MemRanges 0 i r next hi hnext
      hasc hlo hhi]
    simp
  refine ⟨key, fun d hin => ?_⟩
  rw [key, readRange_inside d _ _ hin]

/-- C2 at `twoRanges`, index 0, address 0x1004: offset 2 + 0 + 4 = 6, length 3. -/
theorem ReadSegment_between_starts_witness :
    Ascending twoRanges.MemRanges ∧ 0x1000 < 0x1004 ∧ 0x1004 < 0x2000 ∧
    ReadSegment (some tenBytes) 0x1004 twoRanges = .ret [7, 8, 9] :=
  ⟨by unfold Ascending; decide, by decide, by decide,
   (ReadSegment_between_starts twoRanges 0 0x1004 ⟨0x1000, 3, []⟩ ⟨0x2000, 4, []⟩ rfl rfl
      (by unfold Ascending; decide) (by decide) (by decide)).2 tenBytes (by decide)⟩

/-- C3, counterexample: the single range of `emptyRange` has `LenData` 0, so the address
0x1000 is at `start + LenData` of the last range; `ReadSegment` takes the exact-match
branch there and reads the file: with an unreadable file the process exits, and with the
four-byte file the slice at offset 0x10000 panics. Neither run returns the empty
result. -/
theorem ReadSegment_zero_length_last_counterexample :
    Ascending emptyRange.MemRanges ∧
    emptyRange.MemRanges.getLast? = some ⟨0x1000, 0, []⟩ ∧
    0x1000 + 0 ≤ 0x1000 ∧
    ReadSegment none 0x1000 emptyRange = .exit ∧
    ReadSegment (some fourBytes) 0x1000 emptyRange = .panic ∧
    DumpMemory 0x1000 emptyRange (some fourBytes) ≠ .failedToFind := by
  refine ⟨by unfold Ascending; decide, by decide, by decide, by decide, ?_, ?_⟩
  · decide
  · decide

/-- C3 (amended): for an ascending range list and an address that is strictly below the
first range's start, or at/after the last range's start + LenData and not the last
range's start itself (or for the empty list and any address), `ReadSegment` returns the
empty byte result whatever the file is, also when the file cannot be read, so no file byte
is consulted; `DumpMemory` reports it as `Failed to find ... in memranges`. -/
theorem ReadSegment_not_found (memoryList : Memory64List) (address : Nat)
    (hasc : Ascending memoryList.MemRanges)
    (hout : memoryList.MemRanges = [] ∨
      (∃ first, memoryList.MemRanges.head? = some first ∧
        address < first.StartOfMemoryRange) ∨
      (∃ last, memoryList.MemRanges.getLast? = some last ∧
        last.StartOfMemoryRange + last.LenData ≤ address ∧
        address ≠ last.StartOfMemoryRange)) :
    ∀ file : Option FileData,
      ReadSegment file address memoryList = .ret [] ∧
      DumpMemory address memoryList file = .failedToFind := by
  intro file
  have key : ReadSegment file address memoryList = .ret [] := by
    unfold ReadSegment
    rcases hout with h | ⟨first, hf, hlt⟩ | ⟨last, hl, hge, hne⟩
    · rw [h]; rfl
    · apply loop_all_above
      intro r hr
      have := head_start_le _ first r hasc hf hr
      omega
    · apply loop_all_below
      intro r hr
      have := last_start_ge _ last r hasc hl hr
      omega
  exact ⟨key, by simp [DumpMemory, key]⟩

/-- C3 (amended) at `twoRanges`: 0x2005 is after the last range (0x2000 + 4), and the
result is empty even though the file cannot be read. -/
theorem ReadSegment_not_found_witness :
    Ascending twoRanges.MemRanges ∧
    ReadSegment none 0x2005 twoRanges = .ret [] ∧
    DumpMemory 0x2005 twoRanges none = .failedToFind :=
  ⟨by unfold Ascending; decide,
   ReadSegment_not_found twoRanges 0x2005 (by unfold Ascending; decide)
     (Or.inr (Or.inr ⟨⟨0x2000, 4, []⟩, rfl, by decide, by decide⟩)) none⟩

/-- C4, the code at the failing input: `longRange` resolves 0x1000 to the interval `[0, 8)`,
which exceeds the four-byte file. `ReadSegment` does not fail: the slice expression is
bounded by the capacity of the buffer that holds the file, not by the file size, and the
result is the four file bytes followed by four buffer bytes, which `DumpMemory` writes
out. The sibling failure of the same branch, an unreadable file, ends the process. -/
theorem ReadSegment_over_read :
    resolve 0x1000 longRange.BaseRva 0 longRange.MemRanges = some (0, 8) ∧
    fourBytes.content.length < 0 + 8 ∧
    ReadSegment (some fourBytes) 0x1000 longRange = .ret [1, 2, 3, 4, 0, 0, 0, 0] ∧
    DumpMemory 0x1000 longRange (some fourBytes) = .write [1, 2, 3, 4, 0, 0, 0, 0] ∧
    ReadSegment none 0x1000 longRange = .exit := by
  refine ⟨by decide, by decide, ?_, ?_, by decide⟩
  · decide
  · decide

/-- An interval that resolves (Case A or Case B) with its end beyond the capacity of the
buffer that `ReadFile` returned makes the slice expression panic, whatever that capacity
is: `ReadSegment` never returns bytes for it. -/
theorem ReadSegment_beyond_capacity (d : FileData) (memoryList : Memory64List)
    (address offset length : Nat)
    (hres : resolve address memoryList.BaseRva 0 memoryList.MemRanges = some (offset, length))
    (hlen : length < two64) (hout : d.cap < offset + length) :
    ReadSegment (some d) address memoryList = .panic ∧
    DumpMemory address memoryList (some d) = .panic := by
  have key : ReadSegment (some d) address memoryList = .panic := by
    unfold ReadSegment
    rw [loop_eq_resolve, hres]
    exact readRange_beyond d offset length (resolve_offset_lt _ _ _ _ _ _ hres) hlen hout
  exact ⟨key, by simp [DumpMemory, key]⟩

/-! ### `RemoveEmptyFromEnd` -/

theorem RemoveEmptyFromEnd.loop_append (s t : List GoString) :
    ∀ n, n ≤ s.length →
      RemoveEmptyFromEnd.loop (s ++ t) n = RemoveEmptyFromEnd.loop s n := by
  intro n
  induction n with
  | zero => intro _; rfl
  | succ i ih =>
    intro h
    have hi : i < s.length := h
    simp only [RemoveEmptyFromEnd.loop]
    rw [ih (Nat.le_of_lt hi), List.take_append_of_le_length h]
    have hget : (s ++ t).getD i [] = s.getD i [] := by
      simp [List.getD_eq_getElem?_getD, List.getElem?_append_left hi]
    rw [hget]

theorem RemoveEmptyFromEnd_concat_ne (s : List GoString) (x : GoString) (hx : x ≠ []) :
    RemoveEmptyFromEnd (s ++ [x]) = s ++ [x] := by
  have hget : (s ++ [x]).getD s.length [] = x := by
    simp [List.getD_eq_getElem?_getD]
  simp only [RemoveEmptyFromEnd, List.length_append, List.length_singleton,
    RemoveEmptyFromEnd.loop, hget]
  rw [if_pos hx]
  have : s.length + 1 = (s ++ [x]).length := by simp
  rw [this, List.take_length]

theorem RemoveEmptyFromEnd_concat_nil (s : List GoString) :
    RemoveEmptyFromEnd (s ++ [[]]) = RemoveEmptyFromEnd s := by
  have hget : (s ++ [([] : GoString)]).getD s.length [] = [] := by
    simp [List.getD_eq_getElem?_getD]
  simp only [RemoveEmptyFromEnd, List.length_append, List.length_singleton,
    RemoveEmptyFromEnd.loop, hget]
  rw [if_neg (by simp)]
  exact RemoveEmptyFromEnd.loop_append s _ _ (le_refl _)

theorem RemoveEmptyFromEnd_nil : RemoveEmptyFromEnd [] = [] := rfl

/-- Nothing is removed when the last element is not empty. -/
theorem RemoveEmptyFromEnd_eq_self (s : List GoString)
    (h : ∀ l, s.getLast? = some l → l ≠ []) : RemoveEmptyFromEnd s = s := by
  induction s using List.reverseRecOn with
  | nil => rfl
  | append_singleton s x _ =>
    exact RemoveEmptyFromEnd_concat_ne s x (h x (by simp))

/-- The result splits the input into itself and a tail of empty strings, and does not
end in an empty string. -/
theorem RemoveEmptyFromEnd_spec (s : List GoString) :
    (∃ t, s = RemoveEmptyFromEnd s ++ t ∧ ∀ x ∈ t, x = []) ∧
    (RemoveEmptyFromEnd s).getLast? ≠ some [] := by
  induction s using List.reverseRecOn with
  | nil => exact ⟨⟨[], rfl, by simp⟩, by simp [RemoveEmptyFromEnd_nil]⟩
  | append_singleton s x ih =>
    by_cases hx : x = []
    · subst hx
      rw [RemoveEmptyFromEnd_concat_nil]
      obtain ⟨⟨t, ht, hall⟩, hlast⟩ := ih
      refine ⟨⟨t ++ [[]], ?_, ?_⟩, hlast⟩
      · rw [← List.append_assoc, ← ht]
      · intro y hy
        rcases List.mem_append.mp hy with h | h
        · exact hall y h
        · exact List.mem_singleton.mp h
    · rw [RemoveEmptyFromEnd_concat_ne s x hx]
      refine ⟨⟨[], by simp, by simp⟩, ?_⟩
      rw [List.getLast?_concat]
      intro h
      exact hx (Option.some.inj h)

theorem RemoveEmptyFromEnd_idem (s : List GoString) :
    RemoveEmptyFromEnd (RemoveEmptyFromEnd s) = RemoveEmptyFromEnd s :=
  RemoveEmptyFromEnd_eq_self _ (fun _ hl hnil => (RemoveEmptyFromEnd_spec s).2 (hnil ▸ hl))

theorem RemoveEmptyFromEnd_rdropWhile (s : List GoString) :
    RemoveEmptyFromEnd s = s.rdropWhile (fun x => decide (x = [])) := by
  induction s using List.reverseRecOn with
  | nil => rfl
  | append_singleton s x ih =>
    by_cases hx : x = []
    · subst hx
      rw [RemoveEmptyFromEnd_concat_nil, ih, List.rdropWhile_concat_pos _ _ _ (by simp)]
    · rw [RemoveEmptyFromEnd_concat_ne s x hx, List.rdropWhile_concat_neg _ _ _ (by simp [hx])]

/-- Reading position `i` with the empty string as default does not see the trimming. -/
theorem getD_RemoveEmptyFromEnd (s : List GoString) (i : Nat) :
    (RemoveEmptyFromEnd s).getD i [] = s.getD i [] := by
  obtain ⟨⟨t, ht, hall⟩, _⟩ := RemoveEmptyFromEnd_spec s
  generalize RemoveEmptyFromEnd s = u at ht
  subst ht
  simp only [List.getD_eq_getElem?_getD]
  by_cases hi : i < u.length
  · rw [List.getElem?_append_left hi]
  · have hge : u.length ≤ i := Nat.le_of_not_lt hi
    rw [List.getElem?_append_right hge, List.getElem?_eq_none hge]
    cases hq : t[i - u.length]? with
    | none => rfl
    | some y => simp [hall y (List.getElem?_mem hq)]

/-! ### The record projector -/

theorem truncatePrefix_ne_nil (T : Int) : truncatePrefix T ≠ [] := by
  unfold truncatePrefix
  have h : utf8 "TRUNCATE" ≠ [] := by decide
  simp [h]

/-- The truncation step under a limit that is a natural number. -/
theorem truncateCell_natCast (N : Nat) (cell : GoString) :
    truncateCell (N : Int) cell =
      some (if cell.length > N then truncatePrefix N ++ cell.take N else cell) := by
  unfold truncateCell
  by_cases h : cell.length > N
  · have h1 : (cell.length : Int) > (N : Int) := by exact_mod_cast h
    have h2 : ¬ ((N : Int) < 0) := by omega
    rw [if_pos h1, if_neg h2, if_pos h, Int.toNat_ofNat]
  · have h1 : ¬ ((cell.length : Int) > (N : Int)) := by
      intro hc; exact h (by exact_mod_cast hc)
    rw [if_neg h1, if_neg h]

theorem truncateCell_of_le (T : Int) (cell : GoString) (h : (cell.length : Int) ≤ T) :
    truncateCell T cell = some cell := by
  unfold truncateCell
  rw [if_neg (by omega)]

/-- The cell of a field under a limit that is a natural number. -/
theorem rowCell_natCast (lib : StdLib) (N : Nat) (f : Field) :
    rowCell lib (N : Int) f = some (rowCellNat lib N f) := by
  unfold rowCell rowCellNat
  by_cases h : f.CanInterface lib = true
  · simp only [h, if_true, truncateCell_natCast]
  · simp only [h, if_false]
    rfl

theorem rowCellNat_eq_nil_iff (lib : StdLib) (N : Nat) (f : Field) :
    rowCellNat lib N f = [] ↔ (f.CanInterface lib = false ∨ formatValue f.value = []) := by
  unfold rowCellNat
  by_cases h : f.CanInterface lib = true
  · simp only [h, if_true, Bool.true_eq_false, false_or]
    by_cases hl : (formatValue f.value).length > N
    · rw [if_pos hl]
      constructor
      · intro hc
        exact absurd (List.append_eq_nil.mp hc).1 (truncatePrefix_ne_nil _)
      · intro hc
        rw [hc] at hl
        simp at hl
    · rw [if_neg hl]
  · simp [h]

theorem rowCells_natCast (lib : StdLib) (N : Nat) (data : Record) :
    rowCells lib (N : Int) data = some (data.map (rowCellNat lib N)) := by
  induction data with
  | nil => rfl
  | cons f rest ih => simp [rowCells, rowCell_natCast, ih]

theorem GetValueAsRow_natCast (lib : StdLib) (N : Nat) (data : Record) :
    GetValueAsRow lib (N : Int) data =
      some (RemoveEmptyFromEnd (data.map (rowCellNat lib N))) := by
  simp [GetValueAsRow, rowCells_natCast]

theorem headerCell_ne_nil (lib : StdLib) (f : Field) (h : f.CanInterface lib = true) :
    headerCell lib f ≠ [] := by
  unfold headerCell
  rw [if_pos h]
  exact lib.upper_ne_nil f.name h

theorem headerCell_eq_nil_iff (lib : StdLib) (f : Field) :
    headerCell lib f = [] ↔ f.CanInterface lib = false := by
  constructor
  · intro h
    by_contra hc
    exact headerCell_ne_nil lib f (by simpa using hc) h
  · intro h
    simp [headerCell, h]

/-- The rows of fully exported records whose cells are within the limit. -/
theorem rowCells_plain (lib : StdLib) (T : Int) (data : Record)
    (hexp : ∀ f ∈ data, f.CanInterface lib = true)
    (hlim : ∀ f ∈ data, ((formatValue f.value).length : Int) ≤ T) :
    rowCells lib T data = some (data.map (fun f => formatValue f.value)) := by
  induction data with
  | nil => rfl
  | cons f rest ih =>
    have h1 := hexp f (List.mem_cons_self _ _)
    have h2 := hlim f (List.mem_cons_self _ _)
    have ih1 := ih (fun g hg => hexp g (List.mem_cons_of_mem _ hg))
      (fun g hg => hlim g (List.mem_cons_of_mem _ hg))
    simp [rowCells, rowCell, h1, truncateCell_of_le T _ h2, ih1]

/-! ### The stream lookup -/

theorem streamLookup_skip {α : Type} (code : Nat) (assert : Payload → Option α) :
    ∀ (before : List Dir) (rest : List Dir), (∀ x ∈ before, x.StreamType ≠ code) →
      streamLookup code assert (before ++ rest) = streamLookup code assert rest := by
  intro before
  induction before with
  | nil => intro rest _; rfl
  | cons x tl ih =>
    intro rest h
    have hx := h x (List.mem_cons_self _ _)
    simp only [List.cons_append, streamLookup, if_neg hx]
    exact ih rest (fun y hy => h y (List.mem_cons_of_mem _ hy))

theorem streamLookup_nil_iff {α : Type} (code : Nat) (assert : Payload → Option α) :
    ∀ dir : List Dir,
      (streamLookup code assert dir).2 = .nil ↔ ∀ x ∈ dir, x.StreamType ≠ code := by
  intro dir
  induction dir with
  | nil => simp [streamLookup]
  | cons x tl ih =>
    by_cases hx : x.StreamType = code
    · simp only [streamLookup, if_pos hx]
      constructor
      · intro h
        exfalso
        revert h
        cases x.Data with
        | error e => simp
        | ok p =>
          dsimp only
          cases ha : assert p <;> simp
      · intro h
        exact absurd hx (h x (List.mem_cons_self _ _))
    · simp only [streamLookup, if_neg hx]
      rw [ih]
      constructor
      · intro h y hy
        rcases List.mem_cons.mp hy with rfl | hm
        · exact hx
        · exact h y hm
      · intro h y hy
        exact h y (List.mem_cons_of_mem _ hy)

/-- C5: for every stream directory and type code, the lookup loop yields the payload of the
first entry in directory order whose `StreamType` equals the code, whatever entries
follow it (entries of the same type included), once the accessor of that entry yields a
payload of the asserted type; and it yields nil exactly when no entry has that type. -/
theorem streamLookup_first_match {α : Type} (code : Nat) (assert : Payload → Option α)
    (dir : List Dir) :
    (∀ (before later : List Dir) (entry : Dir) (data : Payload) (payload : α),
      dir = before ++ entry :: later →
      (∀ x ∈ before, x.StreamType ≠ code) → entry.StreamType = code →
      entry.Data = .ok data → assert data = some payload →
      streamLookup code assert dir = ([], .found payload)) ∧
    ((streamLookup code assert dir).2 = .nil ↔ ∀ x ∈ dir, x.StreamType ≠ code) := by
  refine ⟨?_, streamLookup_nil_iff code assert dir⟩
  intro before later entry data payload hdir hbefore hty hdata hassert
  rw [hdir, streamLookup_skip code assert before _ hbefore]
  simp [streamLookup, hty, hdata, hassert]

/-- C5 at `twoThreadLists`: the first thread list is found, the second one is ignored. -/
theorem streamLookup_first_match_witness :
    streamLookup StreamTypes__ThreadList Payload.asThreadList twoThreadLists =
      ([], .found [mainThread]) :=
  (streamLookup_first_match StreamTypes__ThreadList Payload.asThreadList twoThreadLists).1
    [⟨9, .error "decode failed"⟩] [⟨3, .ok (.threadList [])⟩]
    ⟨3, .ok (.threadList [mainThread])⟩ (.threadList [mainThread]) [mainThread]
    rfl (by decide) rfl rfl rfl

/-- C6, counterexample: every field of `hiddenMiddle` is a string or an unsigned integer,
every formatted cell is within the limit 50 and the last cell is not empty, but the middle
field `note` is unexported: its header entry and its row cell are the empty string, not
`NOTE` and `0x7`. -/
theorem projection_unexported_counterexample :
    (∀ f ∈ hiddenMiddle, ((formatValue f.value).length : Int) ≤ 50) ∧
    (∀ l, hiddenMiddle.getLast? = some l → formatValue l.value ≠ []) ∧
    formatValue (.uint 7) = utf8 "0x7" ∧
    GetTableHeader asciiStdLib hiddenMiddle = [utf8 "NAME", [], utf8 "VALUE"] ∧
    GetValueAsRow asciiStdLib 50 hiddenMiddle = some [utf8 "abc", [], utf8 "0x2a"] := by
  decide

/-- C6 (amended): for every record whose fields are all exported (strings, unsigned
integers or byte slices), with every formatted cell within the truncation limit and the
last cell non-empty, `GetTableHeader` yields the field names upper-cased in declaration
order and `GetValueAsRow` yields one cell per field in the same order, a string rendered
unchanged and an unsigned integer as `0x` followed by its lower-case hexadecimal digits. -/
theorem projection_plain (lib : StdLib) (TruncateLength : Int) (data : Record)
    (hexp : ∀ f ∈ data, f.CanInterface lib = true)
    (hlim : ∀ f ∈ data, ((formatValue f.value).length : Int) ≤ TruncateLength)
    (hlast : ∀ l, data.getLast? = some l → formatValue l.value ≠ []) :
    GetTableHeader lib data = data.map (fun f => lib.ToUpper f.name) ∧
    GetValueAsRow lib TruncateLength data = some (data.map (fun f => formatValue f.value)) ∧
    (∀ s, formatValue (.str s) = s) ∧
    (∀ n, formatValue (.uint n) = utf8 "0x" ++ utf8 (String.mk (Nat.toDigits 16 n))) := by
  refine ⟨?_, ?_, fun _ => rfl, fun _ => rfl⟩
  · have hmap : data.map (headerCell lib) = data.map (fun f => lib.ToUpper f.name) := by
      apply List.map_congr_left
      intro f hf
      simp [headerCell, hexp f hf]
    unfold GetTableHeader
    rw [← hmap]
    apply RemoveEmptyFromEnd_eq_self
    intro l hl
    rw [List.getLast?_map] at hl
    cases hd : data.getLast? with
    | none => rw [hd] at hl; simp at hl
    | some f =>
      rw [hd] at hl
      simp only [Option.map_some', Option.some.injEq] at hl
      rw [← hl]
      exact headerCell_ne_nil lib f (hexp f (List.mem_of_getLast?_eq_some hd))
  · unfold GetValueAsRow
    rw [rowCells_plain lib TruncateLength data hexp hlim]
    simp only [Option.map_some', Option.some.injEq]
    apply RemoveEmptyFromEnd_eq_self
    intro l hl
    rw [List.getLast?_map] at hl
    cases hd : data.getLast? with
    | none => rw [hd] at hl; simp at hl
    | some f =>
      rw [hd] at hl
      simp only [Option.map_some', Option.some.injEq] at hl
      rw [← hl]
      exact hlast f hd

/-- C6 (amended) at `{Name: "abc", Value: 0x2A}` with the default limit 50: header `NAME`,
`VALUE` and row `abc`, `0x2a`. -/
theorem projection_plain_witness :
    GetTableHeader asciiStdLib nameValue = [utf8 "NAME", utf8 "VALUE"] ∧
    GetValueAsRow asciiStdLib 50 nameValue = some [utf8 "abc", utf8 "0x2a"] :=
  have h := projection_plain asciiStdLib 50 nameValue (by decide) (by decide) (by decide)
  ⟨h.1.trans (by decide), h.2.1.trans (by decide)⟩

/-- C7, counterexample: with the limit -1 the cell `a` exceeds the limit and
`GetValueAsRow` returns no row, the slice `row[i][:-1]` panics. The value `héllo` has 5
characters in 6 bytes: with the limit 5 it does not exceed 5 characters, yet it is
replaced by the marker and its first 5 bytes; with the limit 2 the marker is followed by
the first 2 bytes, `h` and half of `é`, not by the first 2 characters `hé`. -/
theorem GetValueAsRow_truncation_counterexample :
    GetValueAsRow asciiStdLib (-1) [⟨utf8 "Name", .str (utf8 "a")⟩] = none ∧
    "héllo".length = 5 ∧ (utf8 "héllo").length = 6 ∧
    GetValueAsRow asciiStdLib 5 [⟨utf8 "Name", .str (utf8 "héllo")⟩] =
      some [utf8 "TRUNCATE5:" ++ [0x68, 0xc3, 0xa9, 0x6c, 0x6c]] ∧
    GetValueAsRow asciiStdLib 2 [⟨utf8 "Name", .str (utf8 "héllo")⟩] =
      some [utf8 "TRUNCATE2:" ++ [0x68, 0xc3]] ∧
    utf8 "hé" = [0x68, 0xc3, 0xa9] := by
  decide

/-- C7 (amended): for every truncation limit `N` that is not negative and every field of a
record, `GetValueAsRow` returns a row whose cell for that field (the empty string where
the row was trimmed) is, for a field that can be formatted, the marker `TRUNCATE<N>:`
followed by the first `N` bytes of the formatted cell if the formatted cell is longer
than `N` bytes and the formatted cell unchanged otherwise, and is the empty string for a
field that cannot be formatted. -/
theorem GetValueAsRow_truncation (lib : StdLib) (N : Nat) (data : Record) (i : Nat)
    (f : Field) (hi : data[i]? = some f) :
    ∃ row, GetValueAsRow lib (N : Int) data = some row ∧
      row.getD i [] =
        if f.CanInterface lib then
          (if (formatValue f.value).length > N then
            utf8 "TRUNCATE" ++ utf8 (toString N) ++ utf8 ":" ++ (formatValue f.value).take N
          else formatValue f.value)
        else [] := by
  refine ⟨_, GetValueAsRow_natCast lib N data, ?_⟩
  rw [getD_RemoveEmptyFromEnd]
  simp only [List.getD_eq_getElem?_getD, List.getElem?_map, hi, Option.map_some',
    Option.getD_some]
  rfl

/-- C7 (amended) with limit 5 on the value `abcdefgh`: the cell is `TRUNCATE5:abcde`. -/
theorem GetValueAsRow_truncation_witness :
    ∃ row, GetValueAsRow asciiStdLib 5 [⟨utf8 "Name", .str (utf8 "abcdefgh")⟩] = some row ∧
      row.getD 0 [] = utf8 "TRUNCATE5:" ++ utf8 "abcde" := by
  obtain ⟨row, hrow, hcell⟩ :=
    GetValueAsRow_truncation asciiStdLib 5 [⟨utf8 "Name", .str (utf8 "abcdefgh")⟩] 0
      ⟨utf8 "Name", .str (utf8 "abcdefgh")⟩ rfl
  exact ⟨row, hrow, hcell.trans (by decide)⟩

/-- C8: for every list of strings `s`, `RemoveEmptyFromEnd s` is the prefix of `s` that
ends at the last non-empty element (the empty list when every element is empty): `s` is
the result followed by empty strings only, the result does not end in an empty string
(it is `s` with the trailing empty strings dropped), every element of the result is the
element of `s` at the same position, and applying the function again changes nothing. -/
theorem RemoveEmptyFromEnd_trailing (s : List GoString) :
    (∃ t, s = RemoveEmptyFromEnd s ++ t ∧ ∀ x ∈ t, x = []) ∧
    (RemoveEmptyFromEnd s).getLast? ≠ some [] ∧
    RemoveEmptyFromEnd s = s.rdropWhile (fun x => decide (x = [])) ∧
    (∀ i, i < (RemoveEmptyFromEnd s).length → (RemoveEmptyFromEnd s)[i]? = s[i]?) ∧
    RemoveEmptyFromEnd (RemoveEmptyFromEnd s) = RemoveEmptyFromEnd s := by
  refine ⟨(RemoveEmptyFromEnd_spec s).1, (RemoveEmptyFromEnd_spec s).2,
    RemoveEmptyFromEnd_rdropWhile s, ?_, RemoveEmptyFromEnd_idem s⟩
  intro i hi
  obtain ⟨t, ht, _⟩ := (RemoveEmptyFromEnd_spec s).1
  conv_rhs => rw [ht]
  rw [List.getElem?_append_left hi]

/-- C8 on `a`, empty, `b`, empty, empty: the two trailing empty strings go, the interior
one stays. -/
theorem RemoveEmptyFromEnd_trailing_witness :
    RemoveEmptyFromEnd [utf8 "a", [], utf8 "b", [], []] = [utf8 "a", [], utf8 "b"] :=
  (RemoveEmptyFromEnd_trailing [utf8 "a", [], utf8 "b", [], []]).2.2.1.trans (by decide)

/-- C9, counterexample: in `emptyLast` only the last field is empty (an exported string
field holding the empty string). The row loses its trailing entry, the header keeps the
entry `VALUE`: the header has two entries and the row one. In `hiddenLast` only the last
field is empty (it is unexported); under the limit -1 `GetValueAsRow` returns no row for
it, the slice bound of the truncation step being negative. -/
theorem projection_empty_string_last_counterexample :
    GetValueAsRow asciiStdLib 50 [⟨utf8 "Name", .str (utf8 "abc")⟩] = some [utf8 "abc"] ∧
    rowCell asciiStdLib 50 ⟨utf8 "Value", .str []⟩ = some [] ∧
    GetValueAsRow asciiStdLib 50 emptyLast = some [utf8 "abc"] ∧
    GetTableHeader asciiStdLib emptyLast = [utf8 "NAME", utf8 "VALUE"] ∧
    GetValueAsRow asciiStdLib (-1) hiddenLast = none := by
  decide

/-- C9 (amended): let the truncation limit be not negative and call a field empty when it
cannot be formatted (it is unexported) or formats to the empty string. For every record
in which only the last field is empty, the row returned by `GetValueAsRow` has that
trailing entry removed (one cell per remaining field); the header returned by
`GetTableHeader` has it removed as well when the field cannot be formatted, so that header
and row have the same length, and keeps one entry per field when the field is an exported
empty string. For every record whose only empty field is in a non-trailing position,
header and row both keep one entry per field, the empty cell in its place. -/
theorem projection_trailing_empty (lib : StdLib) (N : Nat) :
    (∀ (init : Record) (l : Field),
      (∀ f ∈ init, f.CanInterface lib = true ∧ formatValue f.value ≠ []) →
      (l.CanInterface lib = false ∨ formatValue l.value = []) →
      GetValueAsRow lib (N : Int) (init ++ [l]) = some (init.map (rowCellNat lib N)) ∧
      (l.CanInterface lib = false →
        GetTableHeader lib (init ++ [l]) = init.map (fun f => lib.ToUpper f.name)) ∧
      (l.CanInterface lib = true →
        GetTableHeader lib (init ++ [l]) = (init ++ [l]).map (fun f => lib.ToUpper f.name))) ∧
    (∀ (before later : Record) (e : Field), later ≠ [] →
      (∀ f ∈ before ++ later, f.CanInterface lib = true ∧ formatValue f.value ≠ []) →
      (e.CanInterface lib = false ∨ formatValue e.value = []) →
      GetValueAsRow lib (N : Int) (before ++ e :: later) =
        some (before.map (rowCellNat lib N) ++ [] :: later.map (rowCellNat lib N)) ∧
      GetTableHeader lib (before ++ e :: later) =
        before.map (fun f => lib.ToUpper f.name) ++ headerCell lib e ::
          later.map (fun f => lib.ToUpper f.name)) := by
  have hhead : ∀ (fs : Record), (∀ f ∈ fs, f.CanInterface lib = true ∧ formatValue f.value ≠ []) →
      fs.map (headerCell lib) = fs.map (fun f => lib.ToUpper f.name) := by
    intro fs h
    apply List.map_congr_left
    intro f hf
    simp [headerCell, (h f hf).1]
  have hcellne : ∀ f : Field, f.CanInterface lib = true ∧ formatValue f.value ≠ [] →
      rowCellNat lib N f ≠ [] := by
    intro f hf hc
    rcases (rowCellNat_eq_nil_iff lib N f).mp hc with h | h
    · rw [hf.1] at h; exact Bool.noConfusion h
    · exact hf.2 h
  have hrowsEnd : ∀ (fs : Record),
      (∀ f ∈ fs, f.CanInterface lib = true ∧ formatValue f.value ≠ []) →
      ∀ c, (fs.map (rowCellNat lib N)).getLast? = some c → c ≠ [] := by
    intro fs h c hc
    rw [List.getLast?_map] at hc
    cases hd : fs.getLast? with
    | none => rw [hd] at hc; simp at hc
    | some f =>
      rw [hd] at hc
      simp only [Option.map_some', Option.some.injEq] at hc
      rw [← hc]
      exact hcellne f (h f (List.mem_of_getLast?_eq_some hd))
  have hheadEnd : ∀ (fs : Record),
      (∀ f ∈ fs, f.CanInterface lib = true ∧ formatValue f.value ≠ []) →
      ∀ c, (fs.map (headerCell lib)).getLast? = some c → c ≠ [] := by
    intro fs h c hc
    rw [List.getLast?_map] at hc
    cases hd : fs.getLast? with
    | none => rw [hd] at hc; simp at hc
    | some f =>
      rw [hd] at hc
      simp only [Option.map_some', Option.some.injEq] at hc
      rw [← hc]
      exact headerCell_ne_nil lib f (h f (List.mem_of_getLast?_eq_some hd)).1
  constructor
  · intro init l hinit hl
    have hlcell : rowCellNat lib N l = [] := (rowCellNat_eq_nil_iff lib N l).mpr hl
    refine ⟨?_, ?_, ?_⟩
    · rw [GetValueAsRow_natCast, List.map_append, List.map_singleton, hlcell,
        RemoveEmptyFromEnd_concat_nil,
        RemoveEmptyFromEnd_eq_self _ (hrowsEnd init hinit)]
    · intro hhid
      unfold GetTableHeader
      rw [List.map_append, List.map_singleton, (headerCell_eq_nil_iff lib l).mpr hhid,
        RemoveEmptyFromEnd_concat_nil, RemoveEmptyFromEnd_eq_self _ (hheadEnd init hinit),
        hhead init hinit]
    · intro hexp
      unfold GetTableHeader
      rw [List.map_append, List.map_singleton,
        RemoveEmptyFromEnd_concat_ne _ _ (headerCell_ne_nil lib l hexp), hhead init hinit]
      simp [headerCell, hexp]
  · intro before later e hne hall he
    have hb : ∀ f ∈ before, f.CanInterface lib = true ∧ formatValue f.value ≠ [] :=
      fun f hf => hall f (List.mem_append_left _ hf)
    have hl : ∀ f ∈ later, f.CanInterface lib = true ∧ formatValue f.value ≠ [] :=
      fun f hf => hall f (List.mem_append_right _ hf)
    have hecell : rowCellNat lib N e = [] := (rowCellNat_eq_nil_iff lib N e).mpr he
    have hlast : ∀ (g : Field → GoString) (x : GoString),
        (∀ c, (later.map g).getLast? = some c → c ≠ []) →
        ∀ c, (before.map g ++ x :: later.map g).getLast? = some c → c ≠ [] := by
      intro g x hg c hc
      have hne2 : later.map g ≠ [] := by simpa using hne
      rw [List.getLast?_append_of_ne_nil _ (List.cons_ne_nil _ _)] at hc
      cases hq : later.map g with
      | nil => exact absurd hq hne2
      | cons y ys =>
        rw [hq] at hc hg
        rw [List.getLast?_cons_cons] at hc
        exact hg c hc
    constructor
    · rw [GetValueAsRow_natCast, List.map_append, List.map_cons, hecell,
        RemoveEmptyFromEnd_eq_self _ (hlast (rowCellNat lib N) [] (hrowsEnd later hl))]
    · unfold GetTableHeader
      rw [List.map_append, List.map_cons,
        RemoveEmptyFromEnd_eq_self _ (hlast (headerCell lib) (headerCell lib e) (hheadEnd later hl)),
        hhead before hb, hhead later hl]

/-- C9 (amended) at `hiddenLast` (last field unexported: header and row both lose the
entry), at `emptyLast` (last field an exported empty string: only the row loses it) and
at `emptyMiddle` (interior empty string: nothing is removed). -/
theorem projection_trailing_empty_witness :
    (GetValueAsRow asciiStdLib (50 : Nat) hiddenLast = some [utf8 "abc"] ∧
      GetTableHeader asciiStdLib hiddenLast = [utf8 "NAME"]) ∧
    (GetValueAsRow asciiStdLib (50 : Nat) emptyLast = some [utf8 "abc"] ∧
      GetTableHeader asciiStdLib emptyLast = [utf8 "NAME", utf8 "VALUE"]) ∧
    (GetValueAsRow asciiStdLib (50 : Nat) emptyMiddle = some [utf8 "abc", [], utf8 "0x2a"] ∧
      GetTableHeader asciiStdLib emptyMiddle = [utf8 "NAME", utf8 "NOTE", utf8 "VALUE"]) :=
  have h1 := (projection_trailing_empty asciiStdLib 50).1 [⟨utf8 "Name", .str (utf8 "abc")⟩]
    ⟨utf8 "value", .uint 7⟩ (by decide) (by decide)
  have h2 := (projection_trailing_empty asciiStdLib 50).1 [⟨utf8 "Name", .str (utf8 "abc")⟩]
    ⟨utf8 "Value", .str []⟩ (by decide) (by decide)
  have h3 := (projection_trailing_empty asciiStdLib 50).2 [⟨utf8 "Name", .str (utf8 "abc")⟩]
    [⟨utf8 "Value", .uint 0x2A⟩] ⟨utf8 "Note", .str []⟩ (by decide) (by decide) (by decide)
  ⟨⟨h1.1.trans (by decide), (h1.2.1 (by decide)).trans (by decide)⟩,
   ⟨h2.1.trans (by decide), (h2.2.2 (by decide)).trans (by decide)⟩,
   ⟨h3.1.trans (by decide), h3.2.trans (by decide)⟩⟩

/-- A decode failure at the first entry of the thread-list type: `GetThreadList` prints the
error and dies in the type assertion, whatever the directory holds around that entry. -/
theorem GetThreadList_decode_failure (lib : StdLib) (TruncateLength : Int) (before later : List Dir)
    (entry : Dir) (err : String)
    (hbefore : ∀ x ∈ before, x.StreamType ≠ StreamTypes__ThreadList)
    (hty : entry.StreamType = StreamTypes__ThreadList) (hdata : entry.Data = .error err) :
    GetThreadList lib TruncateLength (before ++ entry :: later) = ([.text err], .panic) := by
  unfold GetThreadList
  rw [streamLookup_skip _ _ before _ hbefore]
  simp [streamLookup, hty, hdata]

/-- A decode failure at the first entry of the 64-bit memory-range type:
`GetMemory64List` prints the error and dies in the type assertion. -/
theorem GetMemory64List_decode_failure (lib : StdLib) (TruncateLength : Int) (print : Bool)
    (before later : List Dir) (entry : Dir) (err : String)
    (hbefore : ∀ x ∈ before, x.StreamType ≠ StreamTypes__Memory64List)
    (hty : entry.StreamType = StreamTypes__Memory64List) (hdata : entry.Data = .error err) :
    GetMemory64List lib TruncateLength (before ++ entry :: later) print =
      ([.text err], .panic) := by
  unfold GetMemory64List
  rw [streamLookup_skip _ _ before _ hbefore]
  simp [streamLookup, hty, hdata]

/-- C10, the code at the failing input: a directory whose only thread-list entry (resp.
memory-range entry) fails to decode. The command prints the error and then panics in the
type assertion on the nil payload; it does not reach its stream-not-found message, which
the same command prints when the directory has no entry of the type. -/
theorem decode_failure_aborts (lib : StdLib) :
    GetThreadList lib 50 [⟨3, .error "decode failed"⟩] =
      ([.text "decode failed"], .panic) ∧
    GetMemory64List lib 50 [⟨9, .error "decode failed"⟩] false =
      ([.text "decode failed"], .panic) ∧
    GetThreadList lib 50 [] =
      ([.text "ThreadList stream not found in the Minidump file"], .done) ∧
    GetMemory64List lib 50 [] false =
      ([.text "memoryList stream not found in the Minidump file"], .nil) :=
  ⟨rfl, rfl, rfl, rfl⟩

/-! ### Memory protection labels -/

theorem and_low_byte (p m : Nat) (hm : 255 &&& m = m) : p &&& m = (p % 256) &&& m := by
  have h : p % 256 = p &&& 255 := (Nat.and_pow_two_sub_one_eq_mod p 8).symm
  rw [h, Nat.and_assoc, hm]

theorem and_low_byte_pow (p k : Nat) (hk : k < 8) : p &&& 2 ^ k = (p % 256) &&& 2 ^ k := by
  apply and_low_byte
  interval_cases k <;> decide

theorem label_of_byte :
    ∀ b, b < 256 → ∀ k, k < 8 → b &&& 2 ^ k ≠ 0 →
      (∀ j, j < 8 → k < j → b &&& 2 ^ j = 0) →
      GetMemoryProtectionString b =
        ["PAGE_NOACCESS", "PAGE_READONLY", "PAGE_READWRITE", "PAGE_WRITECOPY", "PAGE_EXECUTE",
          "PAGE_EXECUTE_READ", "PAGE_EXECUTE_READWRITE", "PAGE_EXECUTE_WRITECOPY"].getD k "" := by
  decide

/-- The label depends on the low byte alone once the low byte is not zero. -/
theorem GetMemoryProtectionString_low_byte (p : Nat) (h : p % 256 ≠ 0) :
    GetMemoryProtectionString p = GetMemoryProtectionString (p % 256) := by
  have hp : p ≠ 0 := by
    intro h0; rw [h0] at h; exact h rfl
  have e : ∀ m, 255 &&& m = m → p % 256 &&& m = p &&& m := by
    intro m hm
    exact (and_low_byte p m hm).symm
  simp only [GetMemoryProtectionString, PAGE_NOACCESS, PAGE_READONLY, PAGE_READWRITE,
    PAGE_WRITECOPY, PAGE_EXECUTE, PAGE_EXECUTE_READ, PAGE_EXECUTE_READWRITE,
    PAGE_EXECUTE_WRITECOPY]
  simp only [e 0x01 (by decide), e 0x02 (by decide), e 0x04 (by decide), e 0x08 (by decide),
    e 0x10 (by decide), e 0x20 (by decide), e 0x40 (by decide), e 0x80 (by decide)]
  simp only [hp, h, or_false]

theorem GetMemoryProtectionString_no_basic (p : Nat) (h : p % 256 = 0) :
    GetMemoryProtectionString p = if p = 0 then "PAGE_NOACCESS" else "NONE" := by
  have e : ∀ m, 255 &&& m = m → p &&& m = 0 := by
    intro m hm
    rw [and_low_byte p m hm, h, Nat.zero_and]
  simp only [GetMemoryProtectionString, PAGE_NOACCESS, PAGE_READONLY, PAGE_READWRITE,
    PAGE_WRITECOPY, PAGE_EXECUTE, PAGE_EXECUTE_READ, PAGE_EXECUTE_READWRITE,
    PAGE_EXECUTE_WRITECOPY]
  simp only [e 0x01 (by decide), e 0x02 (by decide), e 0x04 (by decide), e 0x08 (by decide),
    e 0x10 (by decide), e 0x20 (by decide), e 0x40 (by decide), e 0x80 (by decide)]
  by_cases hp : p = 0
  · simp [hp]
  · simp [hp]

theorem or_modifier_low_byte (p m : Nat) (hm : m % 256 = 0) : (p ||| m) % 256 = p % 256 := by
  have h1 : ∀ x, x % 256 = x &&& 255 := fun x => (Nat.and_pow_two_sub_one_eq_mod x 8).symm
  rw [h1, h1, Nat.and_distrib_right, ← h1 m, hm, Nat.or_zero]

/-- C11: for every protect value `p` (every 32-bit value and beyond),
`GetMemoryProtectionString p` is the label of the highest-valued of the eight basic
protection bits 0x01..0x80 set in `p`, the labels being PAGE_NOACCESS, PAGE_READONLY,
PAGE_READWRITE, PAGE_WRITECOPY, PAGE_EXECUTE, PAGE_EXECUTE_READ, PAGE_EXECUTE_READWRITE,
PAGE_EXECUTE_WRITECOPY in ascending order of the bits; when none of them is set it is
`PAGE_NOACCESS` if `p = 0` and `NONE` otherwise; two values with the same basic bits, one
of them set, have the same label, and in particular or-ing in a modifier bit (PAGE_GUARD,
PAGE_NOCACHE, PAGE_WRITECOMBINE, PAGE_TARGETS_INVALID) never changes the label of a value
that has a basic bit set. -/
theorem GetMemoryProtectionString_basic_bits (p : Nat) :
    (∀ k, k < 8 → p &&& 2 ^ k ≠ 0 → (∀ j, j < 8 → k < j → p &&& 2 ^ j = 0) →
      GetMemoryProtectionString p =
        ["PAGE_NOACCESS", "PAGE_READONLY", "PAGE_READWRITE", "PAGE_WRITECOPY", "PAGE_EXECUTE",
          "PAGE_EXECUTE_READ", "PAGE_EXECUTE_READWRITE", "PAGE_EXECUTE_WRITECOPY"].getD k "") ∧
    ((∀ k, k < 8 → p &&& 2 ^ k = 0) →
      GetMemoryProtectionString p = if p = 0 then "PAGE_NOACCESS" else "NONE") ∧
    (∀ q, q % 256 = p % 256 → p % 256 ≠ 0 →
      GetMemoryProtectionString q = GetMemoryProtectionString p) ∧
    (∀ m, m ∈ [PAGE_GUARD, PAGE_NOCACHE, PAGE_WRITECOMBINE, PAGE_TARGETS_INVALID] →
      p % 256 ≠ 0 → GetMemoryProtectionString (p ||| m) = GetMemoryProtectionString p) := by
  have hsame : ∀ q, q % 256 = p % 256 → p % 256 ≠ 0 →
      GetMemoryProtectionString q = GetMemoryProtectionString p := by
    intro q hq hp
    rw [GetMemoryProtectionString_low_byte p hp,
      GetMemoryProtectionString_low_byte q (by rw [hq]; exact hp), hq]
  refine ⟨?_, ?_, hsame, ?_⟩
  · intro k hk hbit hhigh
    have hb : p % 256 &&& 2 ^ k ≠ 0 := by rw [← and_low_byte_pow p k hk]; exact hbit
    have hne : p % 256 ≠ 0 := by
      intro h0; rw [h0, Nat.zero_and] at hb; exact hb rfl
    rw [GetMemoryProtectionString_low_byte p hne]
    apply label_of_byte (p % 256) (Nat.mod_lt _ (by decide)) k hk hb
    intro j hj hkj
    rw [← and_low_byte_pow p j hj]
    exact hhigh j hj hkj
  · intro hnone
    apply GetMemoryProtectionString_no_basic
    have hbits : ∀ b, b < 256 → (∀ k, k < 8 → b &&& 2 ^ k = 0) → b = 0 := by decide
    apply hbits (p % 256) (Nat.mod_lt _ (by decide))
    intro k hk
    rw [← and_low_byte_pow p k hk]
    exact hnone k hk
  · intro m hm hp
    apply hsame _ _ hp
    apply or_modifier_low_byte
    simp only [List.mem_cons, List.mem_singleton, List.not_mem_nil, or_false] at hm
    rcases hm with h | h | h | h <;> rw [h] <;> decide

/-- C11 at 0x104 (PAGE_READWRITE with PAGE_GUARD): bit 2 is the highest basic bit. -/
theorem GetMemoryProtectionString_basic_bits_witness :
    GetMemoryProtectionString 0x104 = "PAGE_READWRITE" ∧
    GetMemoryProtectionString 0x100 = "NONE" ∧
    GetMemoryProtectionString (0x04 ||| PAGE_GUARD) = GetMemoryProtectionString 0x04 :=
  ⟨(GetMemoryProtectionString_basic_bits 0x104).1 2 (by decide) (by decide) (by decide),
   (GetMemoryProtectionString_basic_bits 0x100).2.1 (by decide),
   (GetMemoryProtectionString_basic_bits 0x04).2.2.2 PAGE_GUARD (by decide) (by decide)⟩

/-! ### The last range -/

/-- C12, counterexample: the start addresses of `overlappingRanges` increase strictly;
0x1030 lies strictly inside the last range (0x1010 + 0x20) and is not resolved, and the
address at the same relative position inside the earlier range, 0x1000 + 0x20, lies inside
that range (below 0x1000 + 0x100) and is not resolved either: it is above the start of the
last range, so neither branch matches and the result is empty even for an unreadable
file. -/
theorem ReadSegment_overlap_counterexample :
    StrictlyAscending overlappingRanges.MemRanges ∧
    overlappingRanges.MemRanges.getLast? = some ⟨0x1010, 0x100, []⟩ ∧
    (0x1010 < 0x1030 ∧ 0x1030 < 0x1010 + 0x100) ∧
    overlappingRanges.MemRanges[0]? = some ⟨0x1000, 0x100, []⟩ ∧
    (0x1000 < 0x1000 + 0x20 ∧ 0x1000 + 0x20 < 0x1000 + 0x100) ∧
    resolve (0x1000 + 0x20) overlappingRanges.BaseRva 0 overlappingRanges.MemRanges = none ∧
    ReadSegment none (0x1000 + 0x20) overlappingRanges = .ret [] := by
  refine ⟨by unfold StrictlyAscending; decide, by decide, by decide, by decide, by decide,
    by decide, by decide⟩

/-- C12 (amended): for every non-empty range list with strictly ascending start addresses
and every address strictly greater than the last range's start address, `ReadSegment`
returns the empty (not-found) result whatever the file is; in particular an address
strictly inside the last range's captured bytes is never resolved, whereas the address at
the same relative position `d` inside an earlier range (`0 < d < LenData_i`) is resolved
when that earlier range does not reach into the next one
(`start_i + LenData_i <= start_(i+1)`): `ReadSegment` then reads at
`BaseRva + sum of LenData of ranges 0..i-1 + d` with length `LenData_i`. -/
theorem ReadSegment_last_range_interior (memoryList : Memory64List) (last : MemRange)
    (hasc : StrictlyAscending memoryList.MemRanges)
    (hlast : memoryList.MemRanges.getLast? = some last) :
    (∀ address, last.StartOfMemoryRange < address →
      ∀ file : Option FileData, ReadSegment file address memoryList = .ret []) ∧
    (∀ address, last.StartOfMemoryRange < address →
      address < last.StartOfMemoryRange + last.LenData →
      (∀ file : Option FileData, ReadSegment file address memoryList = .ret []) ∧
      ∀ (i : Nat) (r next : MemRange), memoryList.MemRanges[i]? = some r →
        memoryList.MemRanges[i + 1]? = some next →
        address - last.StartOfMemoryRange < r.LenData →
        r.StartOfMemoryRange + r.LenData ≤ next.StartOfMemoryRange →
        ∀ file : Option FileData,
          ReadSegment file (r.StartOfMemoryRange + (address - last.StartOfMemoryRange))
              memoryList =
            readRange file
              ((memoryList.BaseRva + sumLenData (memoryList.MemRanges.take i) +
                (address - last.StartOfMemoryRange)) % two64)
              r.LenData) := by
  have hnone : ∀ address, last.StartOfMemoryRange < address →
      ∀ file : Option FileData, ReadSegment file address memoryList = .ret [] := by
    intro address hgt file
    unfold ReadSegment
    apply loop_all_below
    intro r hr
    have := last_start_ge _ last r (StrictlyAscending.ascending hasc) hlast hr
    omega
  refine ⟨hnone, ?_⟩
  intro address hgt _
  refine ⟨hnone address hgt, ?_⟩
  intro i r next hi hnext hd hno file
  have h := loop_between file (r.StartOfMemoryRange + (address - last.StartOfMemoryRange))
    memoryList.BaseRva memoryList.MemRanges 0 i r next hi hnext
    (StrictlyAscending.ascending hasc) (by omega) (by omega)
  unfold ReadSegment
  rw [h]
  congr 1
  congr 1
  omega

/-- C12 (amended) at `twoRanges`: 0x2002 lies inside the last range and is not found, not
even reading the file; the same relative position in the first range, 0x1002, is resolved
to offset 2 + 0 + 2 = 4 with length 3. -/
theorem ReadSegment_last_range_interior_witness :
    StrictlyAscending twoRanges.MemRanges ∧
    ReadSegment none 0x2002 twoRanges = .ret [] ∧
    ReadSegment (some tenBytes) 0x1002 twoRanges = .ret [5, 6, 7] :=
  have h := ReadSegment_last_range_interior twoRanges ⟨0x2000, 4, []⟩
    (by unfold StrictlyAscending; decide) rfl
  ⟨by unfold StrictlyAscending; decide, h.1 0x2002 (by decide) none,
   ((h.2 0x2002 (by decide) (by decide)).2 0 ⟨0x1000, 3, []⟩ ⟨0x2000, 4, []⟩ rfl rfl
      (by decide) (by decide) (some tenBytes)).trans (by decide)⟩

end Warbler
